import Mathlib

/-! LinkedBox: a capacity-bounded singly linked container.

Shallow embedding of `src/LinkedBox.cpp`.

* The chain of `Node<T>` objects reachable from `head_` through `next()` is a
  `List T`, head first; `nullptr` is the empty list.
* The template parameter `T` is any type offering `size()` and `getType()`
  (class `BoxItem`).
* A member function that mutates the box returns its result together with the
  box after the call.
* `addItem32` is `addItem` as the program runs it, with a 32-bit two's
  complement `int` whose arithmetic wraps. `addItem` is the same function in
  exact arithmetic (`Int`); the two agree whenever `size_ + target.size()` is
  representable (`addItem32_eq_addItem_of_in_range`), which is every execution
  without signed overflow.
* A `const` member function is embedded twice: as a function of the box
  (`contains`, `count`, `display`, `size`, `capacity`) and, with the object and
  `std::cout` threaded through its statements, as `containsCall`, `countCall`,
  `displayCall`, `sizeCall`, `capacityCall`.
-/

set_option autoImplicit false

/-- The two member functions `LinkedBox<T>` calls on its elements:
`target.size()` and `value().getType()`. -/
class BoxItem (T : Type) where
  /-- The result of `size()`: the contribution of the element to the budget. -/
  size : T → Int
  /-- The result of `getType()`: the type tag of the element. -/
  getType : T → String

/-- The data members of `LinkedBox<T>`: the chain hanging off `head_`,
`capacity_` and `size_`. -/
structure LinkedBox (T : Type) where
  /-- The elements of the nodes reachable from `head_`, in `next()` order. -/
  head_ : List T
  /-- The member `capacity_`. -/
  capacity_ : Int
  /-- The member `size_`. -/
  size_ : Int

/-- A concrete element type for examples: the chess pieces of the `addItem`
documentation example (`Pawn` of size 1, `Rook` of size 2, `Queen` of size 3).
The field `serial` tells two pieces of the same kind apart. -/
structure Piece where
  /-- The type tag. -/
  kind : String
  /-- The size. -/
  weight : Int
  /-- The identity of this piece. -/
  serial : Nat
  deriving DecidableEq, Repr

instance : BoxItem Piece where
  size p := p.weight
  getType p := p.kind

namespace LinkedBox

variable {T : Type}

/-- `LinkedBox<T>::LinkedBox()`:
`head_{nullptr}, capacity_{64}, size_{0}`. -/
def new : LinkedBox T :=
  { head_ := [], capacity_ := 64, size_ := 0 }

/-- `LinkedBox<T>::LinkedBox(const int &capacity)`:
`capacity_{capacity}, head_{nullptr}, size_{0}`. The argument is stored as it
is given. -/
def withCapacity (capacity : Int) : LinkedBox T :=
  { head_ := [], capacity_ := capacity, size_ := 0 }

/-- `LinkedBox<T>::size()`: `return size_;`. -/
def size (b : LinkedBox T) : Int := b.size_

/-- `LinkedBox<T>::capacity()`: `return capacity_;`. -/
def capacity (b : LinkedBox T) : Int := b.capacity_

/-- `LinkedBox<T>::addItem(const T &target)` in exact arithmetic: the returned
flag and the box after the call.
`if (size_ + target.size() > capacity_) { return false; }`, otherwise a new
node holding `target` becomes the head with the old head as its `next`, and
`size_ += target.size()`. The sum is the mathematical one, which is what the
program computes as long as it is representable in an `int`; `addItem32` is
the function with the wrapping sum. -/
def addItem [BoxItem T] (b : LinkedBox T) (target : T) : Bool × LinkedBox T :=
  if b.size_ + BoxItem.size target > b.capacity_ then (false, b)
  else
    (true,
      { head_ := target :: b.head_
        capacity_ := b.capacity_
        size_ := b.size_ + BoxItem.size target })

/-- The `while (current)` loop of `LinkedBox<T>::remove`. The loop state is the
part of the chain already walked over (`passed`, from the head up to and
including `previous`; empty exactly when `previous` is `nullptr`) and the part
starting at `current`. On the first node whose `getType()` equals `type` the
node is unlinked (`previous->setNext(current->next())`, or
`head_ = current->next()` when there is no previous node) and the loop stops
with the removed element and the new chain; `none` when `current` runs off the
end. -/
def removeLoop [BoxItem T] (type : String) (passed : List T) : List T → Option (T × List T)
  | [] => none
  | current :: next =>
    if BoxItem.getType current = type then some (current, passed ++ next)
    else removeLoop type (passed ++ [current]) next

/-- `LinkedBox<T>::remove(const std::string& type)`: the returned flag and the
box after the call. On a match `size_ -= current->value().size()` and the
result is `true`; otherwise nothing is written and the result is `false`. -/
def remove [BoxItem T] (b : LinkedBox T) (type : String) : Bool × LinkedBox T :=
  match removeLoop type [] b.head_ with
  | some (removed, chain) =>
    (true,
      { head_ := chain
        capacity_ := b.capacity_
        size_ := b.size_ - BoxItem.size removed })
  | none => (false, b)

/-- The `while (current)` loop of `LinkedBox<T>::contains`: `true` at the first
node whose `getType()` equals `type`, `false` when the chain is exhausted. -/
def containsLoop [BoxItem T] (type : String) : List T → Bool
  | [] => false
  | current :: next =>
    if BoxItem.getType current = type then true else containsLoop type next

/-- `LinkedBox<T>::contains(const std::string &type) const`. -/
def contains [BoxItem T] (b : LinkedBox T) (type : String) : Bool :=
  containsLoop type b.head_

/-- The `while (current)` loop of `LinkedBox<T>::count`, with the local
variable `count` as accumulator: `count++` on every node whose `getType()`
equals `type`. -/
def countLoop [BoxItem T] (type : String) : List T → Int → Int
  | [], count => count
  | current :: next, count =>
    countLoop type next (if BoxItem.getType current = type then count + 1 else count)

/-- `LinkedBox<T>::count(const std::string &type) const`: the loop started
with `int count = 0`. -/
def count [BoxItem T] (b : LinkedBox T) (type : String) : Int :=
  countLoop type b.head_ 0

/-- The `while (current)` loop of `LinkedBox<T>::display`, with the text
written to `std::cout` so far as accumulator: each node appends its
`getType()` and one space. -/
def displayLoop [BoxItem T] : List T → String → String
  | [], out => out
  | current :: next, out => displayLoop next (out ++ BoxItem.getType current ++ " ")

/-- `LinkedBox<T>::display() const`: the text written to `std::cout`, the
loop output followed by the line end of `std::endl`. -/
def display [BoxItem T] (b : LinkedBox T) : String :=
  displayLoop b.head_ "" ++ "\n"

/-- One call of a mutating member function. -/
inductive Op (T : Type) where
  /-- A call `addItem(target)`. -/
  | addItem (target : T)
  /-- A call `remove(type)`. -/
  | remove (type : String)

/-- The box after one call. -/
def step [BoxItem T] (b : LinkedBox T) : Op T → LinkedBox T
  | Op.addItem target => (b.addItem target).2
  | Op.remove type => (b.remove type).2

/-- Every state a box goes through while the calls `ops` are applied to it in
order, the starting state first. -/
def states [BoxItem T] (b : LinkedBox T) : List (Op T) → List (LinkedBox T)
  | [] => [b]
  | op :: ops => b :: states (b.step op) ops

/-- The sum of `size()` over the elements of a chain. -/
def chainSize [BoxItem T] (chain : List T) : Int :=
  (chain.map BoxItem.size).sum

/-- The number of elements of a chain whose type tag equals `type`, as the
specification words the result of `count`. -/
def occurrences [BoxItem T] (type : String) (chain : List T) : Nat :=
  (chain.filter (fun y => decide (BoxItem.getType y = type))).length

/-- The element of an `addItem` call; a `remove` call carries none. -/
def Op.PositiveSize [BoxItem T] : Op T → Prop
  | Op.addItem target => 0 < BoxItem.size target
  | Op.remove _ => True

/-- The calls `addItem(e)` for the elements `e` of a list, in order: the
returned flags, in call order, and the box after the last call. -/
def addItems [BoxItem T] (b : LinkedBox T) : List T → List Bool × LinkedBox T
  | [] => ([], b)
  | e :: es => ((b.addItem e).1 :: (addItems (b.addItem e).2 es).1, (addItems (b.addItem e).2 es).2)

/-- The text of a sequence of type tags as the specification words the output
of `display`: every tag once, in order, each followed by one space. -/
def tagLine : List String → String
  | [] => ""
  | tag :: tags => tag ++ " " ++ tagLine tags

/-- The value of an `int` expression when `int` is 32-bit two's complement and
arithmetic wraps modulo `2^32`: the representative of `x` in
`[-2^31, 2^31 - 1]`. -/
def wrap32 (x : Int) : Int :=
  (x + 2147483648) % 4294967296 - 2147483648

/-- `LinkedBox<T>::addItem` with wrapping 32-bit `int` arithmetic: the sum in
`if (size_ + target.size() > capacity_)` and the one stored by
`size_ += target.size()` are both taken modulo `2^32`. -/
def addItem32 [BoxItem T] (b : LinkedBox T) (target : T) : Bool × LinkedBox T :=
  if wrap32 (b.size_ + BoxItem.size target) > b.capacity_ then (false, b)
  else
    (true,
      { head_ := target :: b.head_
        capacity_ := b.capacity_
        size_ := wrap32 (b.size_ + BoxItem.size target) })

/-- The calls `addItem(e)` for the elements `e` of a list, in order, with
wrapping 32-bit arithmetic: the returned flags and the box after the last
call. -/
def addItems32 [BoxItem T] (b : LinkedBox T) : List T → List Bool × LinkedBox T
  | [] => ([], b)
  | e :: es =>
    ((b.addItem32 e).1 :: (addItems32 (b.addItem32 e).2 es).1,
      (addItems32 (b.addItem32 e).2 es).2)

/-- What the statements of a member function can read and write: the object
the function is called on and the text written to `std::cout` so far. -/
structure World (T : Type) where
  /-- The object `*this`: its chain, `capacity_` and `size_`. -/
  box : LinkedBox T
  /-- The text written to `std::cout` so far. -/
  cout : String

/-- The `while (current)` loop of `LinkedBox<T>::contains` as statements on the
world, with the local `current` as argument: `return true` at a node whose
`getType()` equals `type`, else `current = current->next()`; `return false`
after the loop. -/
def containsWhile [BoxItem T] (type : String) : World T → List T → Bool × World T
  | w, [] => (false, w)
  | w, current :: next =>
    if BoxItem.getType current = type then (true, w) else containsWhile type w next

/-- A call `contains(type)`: `Node<T>* current = head_;` and the loop. The
returned `bool` and the world after the call. -/
def containsCall [BoxItem T] (type : String) (w : World T) : Bool × World T :=
  containsWhile type w w.box.head_

/-- The `while (current)` loop of `LinkedBox<T>::count` as statements on the
world, with the locals `current` and `count` as arguments; `return count`
after the loop. -/
def countWhile [BoxItem T] (type : String) : World T → List T → Int → Int × World T
  | w, [], count => (count, w)
  | w, current :: next, count =>
    countWhile type w next (if BoxItem.getType current = type then count + 1 else count)

/-- A call `count(type)`: `Node<T>* current = head_; int count = 0;` and the
loop. The returned `int` and the world after the call. -/
def countCall [BoxItem T] (type : String) (w : World T) : Int × World T :=
  countWhile type w w.box.head_ 0

/-- The `while (current)` loop of `LinkedBox<T>::display` as statements on the
world, with the local `current` as argument:
`std::cout << current->value().getType() << " ";` appends to the output, then
`current = current->next()`. -/
def displayWhile [BoxItem T] : World T → List T → World T
  | w, [] => w
  | w, current :: next =>
    displayWhile { box := w.box, cout := w.cout ++ BoxItem.getType current ++ " " } next

/-- A call `display()`: `Node<T>* current = head_;`, the loop, and
`std::cout << std::endl;`. The world after the call. -/
def displayCall [BoxItem T] (w : World T) : World T :=
  { box := (displayWhile w w.box.head_).box
    cout := (displayWhile w w.box.head_).cout ++ "\n" }

/-- A call `size()`: `return size_;`. The returned `int` and the world after
the call. -/
def sizeCall (w : World T) : Int × World T := (w.box.size_, w)

/-- A call `capacity()`: `return capacity_;`. The returned `int` and the world
after the call. -/
def capacityCall (w : World T) : Int × World T := (w.box.capacity_, w)

/-! ## Example values -/

/-- A pawn: tag `Pawn`, size 1. -/
def pawn (serial : Nat) : Piece := { kind := "Pawn", weight := 1, serial := serial }

/-- A rook: tag `Rook`, size 2. -/
def rook (serial : Nat) : Piece := { kind := "Rook", weight := 2, serial := serial }

/-- A queen: tag `Queen`, size 3. -/
def queen (serial : Nat) : Piece := { kind := "Queen", weight := 3, serial := serial }

/-- A box of capacity 8 holding a pawn, a rook and another pawn (size 4). -/
def sampleBox : LinkedBox Piece :=
  { head_ := [pawn 3, rook 2, pawn 1], capacity_ := 8, size_ := 4 }

/-- An element as large as an `int` allows: size `2^31 - 1`. -/
def giant (serial : Nat) : Piece := { kind := "Giant", weight := 2147483647, serial := serial }

/-- The five `addItem` calls of the documentation example of `addItem`. -/
def exampleCalls : List Piece := [pawn 1, rook 2, queen 3, pawn 4, rook 5]

/-- A box of capacity `2^31 - 1` filled to its capacity by one `giant`: the
box `addItem32(giant 1)` makes of `withCapacity 2147483647`. -/
def fullBox : LinkedBox Piece :=
  { head_ := [giant 1], capacity_ := 2147483647, size_ := 2147483647 }

/-! ## addItem -/

/-- In exact arithmetic `addItem(e)` returns true if and only if
`size + e.size() <= capacity` (an exact fit is accepted), and when it returns
true the new chain is `e` followed by the old chain, the new size is the old
size plus `e.size()` and the capacity is unchanged. -/
theorem addItem_accepts_iff [BoxItem T] (b : LinkedBox T) (e : T) :
    ((b.addItem e).1 = true ↔ b.size + BoxItem.size e ≤ b.capacity) ∧
    (b.size + BoxItem.size e = b.capacity → (b.addItem e).1 = true) ∧
    ((b.addItem e).1 = true →
      (b.addItem e).2.head_ = e :: b.head_ ∧
      (b.addItem e).2.size = b.size + BoxItem.size e ∧
      (b.addItem e).2.capacity = b.capacity) := by
  unfold addItem size capacity
  by_cases h : b.size_ + BoxItem.size e > b.capacity_
  · simp only [h, if_true]
    refine ⟨?_, ?_, ?_⟩
    · constructor
      · intro hf; cases hf
      · intro hle; omega
    · intro heq; omega
    · intro hf; cases hf
  · simp only [h, if_false]
    refine ⟨?_, ?_, ?_⟩
    · constructor
      · intro _; omega
      · intro _; trivial
    · intro _; trivial
    · intro _; refine ⟨?_, ?_, ?_⟩ <;> first | rfl | trivial

/-- In exact arithmetic, when `size + e.size() > capacity`, `addItem(e)`
returns false and the chain, the size and the capacity are exactly as
before. -/
theorem addItem_rejects_unchanged [BoxItem T] (b : LinkedBox T) (e : T)
    (h : b.size + BoxItem.size e > b.capacity) :
    (b.addItem e).1 = false ∧ (b.addItem e).2 = b := by
  unfold size capacity at h
  unfold addItem
  simp only [h, if_true, and_self]

/-! ## remove -/

/-- The loop of `remove` runs off the end exactly when no element of the part
still to be walked has type `type`. -/
theorem removeLoop_eq_none_iff [BoxItem T] (type : String) :
    ∀ (chain passed : List T),
      removeLoop type passed chain = none ↔ ∀ y ∈ chain, BoxItem.getType y ≠ type := by
  intro chain
  induction chain with
  | nil => intro passed; simp [removeLoop]
  | cons y chain ih =>
    intro passed
    by_cases hy : BoxItem.getType y = type
    · simp [removeLoop, hy]
    · simp [removeLoop, hy, ih (passed ++ [y])]

/-- Whenever the loop of `remove` stops at a node, that node is the first one
of type `type`: the chain splits around it. -/
theorem removeLoop_eq_some [BoxItem T] (type : String) :
    ∀ (chain passed : List T) (x : T) (rest : List T),
      removeLoop type passed chain = some (x, rest) →
      ∃ pre post, chain = pre ++ x :: post ∧ rest = passed ++ pre ++ post ∧
        BoxItem.getType x = type ∧ ∀ y ∈ pre, BoxItem.getType y ≠ type := by
  intro chain
  induction chain with
  | nil => intro passed x rest h; simp [removeLoop] at h
  | cons y chain ih =>
    intro passed x rest h
    by_cases hy : BoxItem.getType y = type
    · simp only [removeLoop, hy, if_true, Option.some.injEq, Prod.mk.injEq] at h
      obtain ⟨rfl, rfl⟩ := h
      exact ⟨[], chain, by simp, by simp, hy, by simp⟩
    · simp only [removeLoop, hy, if_false] at h
      obtain ⟨pre, post, hc, hr, hx, hpre⟩ := ih (passed ++ [y]) x rest h
      refine ⟨y :: pre, post, by simp [hc], by simp [hr], hx, ?_⟩
      intro z hz
      rcases List.mem_cons.mp hz with rfl | hz
      · exact hy
      · exact hpre z hz

/-- C4: `remove(t)` returns false if and only if no element of the chain has
type `t`, and in that case the chain, the size and the capacity are
unchanged. -/
theorem remove_fails_iff [BoxItem T] (b : LinkedBox T) (t : String) :
    ((b.remove t).1 = false ↔ ∀ y ∈ b.head_, BoxItem.getType y ≠ t) ∧
    ((b.remove t).1 = false → (b.remove t).2 = b) := by
  unfold remove
  cases hloop : removeLoop t [] b.head_ with
  | none =>
    have hnone := (removeLoop_eq_none_iff t b.head_ []).mp hloop
    exact ⟨⟨fun _ => hnone, fun _ => rfl⟩, fun _ => rfl⟩
  | some r =>
    obtain ⟨x, rest⟩ := r
    have hsome : ¬ ∀ y ∈ b.head_, BoxItem.getType y ≠ t := by
      intro hall
      rw [(removeLoop_eq_none_iff t b.head_ []).mpr hall] at hloop
      cases hloop
    refine ⟨⟨fun hf => ?_, fun hall => absurd hall hsome⟩, fun hf => ?_⟩
    · cases hf
    · cases hf

/-- C4 at a concrete input: there is no queen among pawn, rook, pawn, so
`remove("Queen")` returns false and the box is as before. -/
theorem remove_fails_iff_witness :
    (sampleBox.remove "Queen").1 = false ∧ (sampleBox.remove "Queen").2 = sampleBox := by
  have h := remove_fails_iff sampleBox "Queen"
  have hf : (sampleBox.remove "Queen").1 = false :=
    h.1.mpr (by simp [sampleBox, pawn, rook, BoxItem.getType])
  exact ⟨hf, h.2 hf⟩

/-! ## The size bookkeeping -/

/-- The sum of sizes of a chain with one element spliced out. -/
theorem chainSize_splice [BoxItem T] (pre : List T) (x : T) (post : List T) :
    chainSize (pre ++ post) = chainSize (pre ++ x :: post) - BoxItem.size x := by
  simp only [chainSize, List.map_append, List.sum_append, List.map_cons, List.sum_cons]
  ring

/-- One call of `addItem` or `remove` keeps `size_` equal to the sum of the
sizes of the chain. -/
theorem step_size_eq_chainSize [BoxItem T] (b : LinkedBox T) (op : Op T)
    (h : b.size_ = chainSize b.head_) :
    (b.step op).size_ = chainSize (b.step op).head_ := by
  cases op with
  | addItem target =>
    simp only [step, addItem]
    by_cases hfull : b.size_ + BoxItem.size target > b.capacity_
    · simpa [hfull] using h
    · simp only [hfull, if_false, chainSize, List.map_cons, List.sum_cons]
      simp only [chainSize] at h
      omega
  | remove type =>
    simp only [step, remove]
    cases hloop : removeLoop type [] b.head_ with
    | none => simpa using h
    | some r =>
      obtain ⟨x, rest⟩ := r
      obtain ⟨pre, post, hc, hr, _, _⟩ := removeLoop_eq_some type b.head_ [] x rest hloop
      simp only [List.nil_append] at hr
      show b.size_ - BoxItem.size x = chainSize rest
      rw [hr, chainSize_splice pre x post, ← hc, h]

/-- Every state a box goes through satisfies a property that the starting
state has and every call preserves. -/
theorem states_induction [BoxItem T] (P : LinkedBox T → Prop)
    (hstep : ∀ (b : LinkedBox T) (op : Op T), P b → P (b.step op)) :
    ∀ (ops : List (Op T)) (b : LinkedBox T), P b → ∀ s ∈ states b ops, P s := by
  intro ops
  induction ops with
  | nil =>
    intro b hb s hs
    simp only [states, List.mem_singleton] at hs
    exact hs ▸ hb
  | cons op ops ih =>
    intro b hb s hs
    simp only [states, List.mem_cons] at hs
    rcases hs with rfl | hs
    · exact hb
    · exact ih (b.step op) (hstep b op hb) s hs

/-- In exact arithmetic, for every capacity argument (and for the default
constructor) and every finite sequence of `addItem` and `remove` calls applied
to the freshly constructed box, in every state reached `size()` equals the sum
of `element.size()` over the elements in the chain. -/
theorem size_eq_chainSize_of_reachable [BoxItem T] (ops : List (Op T)) (s : LinkedBox T)
    (hs : (∃ c : Int, s ∈ states (withCapacity c) ops) ∨ s ∈ states new ops) :
    s.size = chainSize s.head_ := by
  have hpres := states_induction (fun b : LinkedBox T => b.size_ = chainSize b.head_)
    step_size_eq_chainSize ops
  rcases hs with ⟨c, hc⟩ | hn
  · exact hpres (withCapacity c) rfl s hc
  · exact hpres new rfl s hn

/-! ## The capacity bound -/

/-- One call with an element of positive size keeps `size_ <= capacity_`, on a
chain of elements of positive size. -/
theorem step_size_le_capacity [BoxItem T] (b : LinkedBox T) (op : Op T)
    (hop : op.PositiveSize)
    (h : b.size_ ≤ b.capacity_ ∧ ∀ y ∈ b.head_, 0 < BoxItem.size y) :
    (b.step op).size_ ≤ (b.step op).capacity_ ∧
      ∀ y ∈ (b.step op).head_, 0 < BoxItem.size y := by
  obtain ⟨hle, hchain⟩ := h
  cases op with
  | addItem target =>
    simp only [step, addItem]
    by_cases hfull : b.size_ + BoxItem.size target > b.capacity_
    · simp only [hfull, if_true]
      exact ⟨hle, hchain⟩
    · simp only [hfull, if_false]
      refine ⟨by omega, ?_⟩
      intro y hy
      rcases List.mem_cons.mp hy with rfl | hy
      · exact hop
      · exact hchain y hy
  | remove type =>
    simp only [step, remove]
    cases hloop : removeLoop type [] b.head_ with
    | none => exact ⟨hle, hchain⟩
    | some r =>
      obtain ⟨x, rest⟩ := r
      obtain ⟨pre, post, hc, hr, _, _⟩ := removeLoop_eq_some type b.head_ [] x rest hloop
      simp only [List.nil_append] at hr
      have hxpos : 0 < BoxItem.size x := hchain x (by simp [hc])
      refine ⟨?_, ?_⟩
      · show b.size_ - BoxItem.size x ≤ b.capacity_
        omega
      · intro y hy
        show 0 < BoxItem.size y
        have hy2 : y ∈ pre ++ post := hr ▸ hy
        apply hchain y
        rw [hc]
        rcases List.mem_append.mp hy2 with hp | hp
        · exact List.mem_append_left _ hp
        · exact List.mem_append_right _ (List.mem_cons_of_mem x hp)

/-- From a starting state with `size_ <= capacity_` and a chain of elements of
positive size, calls with elements of positive size only reach states with
`size() <= capacity()`. -/
theorem size_le_capacity_of_start [BoxItem T] :
    ∀ (ops : List (Op T)) (b : LinkedBox T), (∀ op ∈ ops, op.PositiveSize) →
      (b.size_ ≤ b.capacity_ ∧ ∀ y ∈ b.head_, 0 < BoxItem.size y) →
      ∀ s ∈ states b ops, s.size ≤ s.capacity := by
  intro ops
  induction ops with
  | nil =>
    intro b _ hb s hs
    simp only [states, List.mem_singleton] at hs
    subst hs
    exact hb.1
  | cons op ops ih =>
    intro b hops hb s hs
    simp only [states, List.mem_cons] at hs
    rcases hs with rfl | hs
    · exact hb.1
    · exact ih (b.step op) (fun o ho => hops o (List.mem_cons_of_mem op ho))
        (step_size_le_capacity b op (hops op (List.mem_cons_self op ops)) hb) s hs

/-- The capacity bound holds in every state reached from the default
constructor, and from the one-argument constructor when its argument is not
negative, by calls with elements of positive size. -/
theorem size_le_capacity_of_nonneg_capacity [BoxItem T] (ops : List (Op T))
    (hops : ∀ op ∈ ops, op.PositiveSize) (s : LinkedBox T)
    (hs : (∃ c : Int, 0 ≤ c ∧ s ∈ states (withCapacity c) ops) ∨ s ∈ states new ops) :
    s.size ≤ s.capacity := by
  rcases hs with ⟨c, hc, hmem⟩ | hmem
  · exact size_le_capacity_of_start ops (withCapacity c) hops
      ⟨hc, fun y hy => absurd hy (List.not_mem_nil y)⟩ s hmem
  · exact size_le_capacity_of_start ops new hops
      ⟨by simp [new], fun y hy => absurd hy (List.not_mem_nil y)⟩ s hmem

/-- C6, at the failing input: the box constructed with capacity argument `-1`
is a state reached by the empty sequence of calls, and there `size()` is 0 and
`capacity()` is `-1`, so `size() <= capacity()` does not hold. -/
theorem size_le_capacity_fails_negative_capacity :
    (withCapacity (-1) : LinkedBox Piece) ∈ states (withCapacity (-1)) [] ∧
    (withCapacity (-1) : LinkedBox Piece).size = 0 ∧
    (withCapacity (-1) : LinkedBox Piece).capacity = -1 ∧
    ¬ ((withCapacity (-1) : LinkedBox Piece).size ≤
        (withCapacity (-1) : LinkedBox Piece).capacity) := by
  refine ⟨by simp [states], rfl, rfl, ?_⟩
  simp [withCapacity, size, capacity]

/-! ## The constructors -/

/-- C7, at the failing inputs: the one-argument constructor stores its argument
as given, so the capacity of a box constructed with `0` is `0` and with `-5`
is `-5`, not 64; the size is 0 and the chain is empty. -/
theorem withCapacity_nonpositive_not_replaced :
    (withCapacity 0 : LinkedBox Piece).capacity = 0 ∧
    (withCapacity (-5) : LinkedBox Piece).capacity = -5 ∧
    (withCapacity (-5) : LinkedBox Piece).capacity ≠ 64 ∧
    (withCapacity (-5) : LinkedBox Piece).size = 0 ∧
    (withCapacity (-5) : LinkedBox Piece).head_ = [] := by
  refine ⟨rfl, rfl, ?_, rfl, rfl⟩
  simp [withCapacity, capacity]

/-- C8: for every `c > 0` the box constructed with capacity argument `c` has
`capacity() == c`, `size() == 0` and an empty chain; the default constructor
gives `capacity() == 64`, `size() == 0` and an empty chain. -/
theorem constructors_positive_capacity (c : Int) (_hc : c > 0) :
    ((withCapacity c : LinkedBox T).capacity = c ∧
      (withCapacity c : LinkedBox T).size = 0 ∧
      (withCapacity c : LinkedBox T).head_ = []) ∧
    ((new : LinkedBox T).capacity = 64 ∧
      (new : LinkedBox T).size = 0 ∧
      (new : LinkedBox T).head_ = []) :=
  ⟨⟨rfl, rfl, rfl⟩, ⟨rfl, rfl, rfl⟩⟩

/-- C8 at a concrete input: capacity argument 8. -/
theorem constructors_positive_capacity_witness :
    ((withCapacity 8 : LinkedBox Piece).capacity = 8 ∧
      (withCapacity 8 : LinkedBox Piece).size = 0 ∧
      (withCapacity 8 : LinkedBox Piece).head_ = []) ∧
    ((new : LinkedBox Piece).capacity = 64 ∧
      (new : LinkedBox Piece).size = 0 ∧
      (new : LinkedBox Piece).head_ = []) :=
  constructors_positive_capacity 8 (by decide)

/-! ## count -/

/-- The loop of `count` adds to its accumulator the number of elements whose
type equals `type`. -/
theorem countLoop_eq [BoxItem T] (type : String) :
    ∀ (chain : List T) (acc : Int),
      countLoop type chain acc = acc + (occurrences type chain : Int) := by
  intro chain
  induction chain with
  | nil => intro acc; simp [countLoop, occurrences]
  | cons y chain ih =>
    intro acc
    by_cases hy : BoxItem.getType y = type
    · simp only [countLoop, hy, if_true, ih]
      simp only [occurrences, hy, decide_True, List.filter_cons_of_pos, List.length_cons]
      push_cast
      ring
    · simp only [countLoop, hy, if_false, ih]
      simp [occurrences, hy]

/-- The occurrences in a chain around its first match `x`. -/
theorem occurrences_splice [BoxItem T] (type : String) (pre : List T) (x : T) (post : List T)
    (hx : BoxItem.getType x = type) :
    occurrences type (pre ++ x :: post) = occurrences type (pre ++ post) + 1 := by
  simp only [occurrences, List.filter_append, List.length_append, hx, decide_True,
    List.filter_cons_of_pos, List.length_cons]
  omega

/-- C9: if some element of the chain has type `t`, `count(t)` after
`remove(t)` is `count(t)` before minus exactly 1; if no element has type `t`,
`remove(t)` returns false and `count(t)` is unchanged. -/
theorem count_after_remove [BoxItem T] (b : LinkedBox T) (t : String) :
    ((∃ y ∈ b.head_, BoxItem.getType y = t) →
      (b.remove t).2.count t = b.count t - 1) ∧
    ((∀ y ∈ b.head_, BoxItem.getType y ≠ t) →
      (b.remove t).1 = false ∧ (b.remove t).2.count t = b.count t) := by
  constructor
  · intro hex
    unfold remove
    cases hloop : removeLoop t [] b.head_ with
    | none =>
      obtain ⟨y, hy, hty⟩ := hex
      exact absurd hty ((removeLoop_eq_none_iff t b.head_ []).mp hloop y hy)
    | some r =>
      obtain ⟨x, rest⟩ := r
      obtain ⟨pre, post, hc, hr, hx, _⟩ := removeLoop_eq_some t b.head_ [] x rest hloop
      simp only [List.nil_append] at hr
      show countLoop t rest 0 = countLoop t b.head_ 0 - 1
      rw [countLoop_eq, countLoop_eq, hc, hr, occurrences_splice t pre x post hx]
      push_cast
      ring
  · intro hall
    have hloop := (removeLoop_eq_none_iff t b.head_ []).mpr hall
    unfold remove
    rw [hloop]
    exact ⟨rfl, rfl⟩

/-- C9 at concrete inputs: `remove("Pawn")` on pawn, rook, pawn takes the count
of pawns from 2 to 1; `remove("Queen")` fails and leaves the count of queens
at 0. -/
theorem count_after_remove_witness :
    ((sampleBox.remove "Pawn").2.count "Pawn" = sampleBox.count "Pawn" - 1 ∧
      sampleBox.count "Pawn" = 2) ∧
    ((sampleBox.remove "Queen").1 = false ∧
      (sampleBox.remove "Queen").2.count "Queen" = sampleBox.count "Queen") :=
  ⟨⟨(count_after_remove sampleBox "Pawn").1
      ⟨pawn 3, by simp [sampleBox], by simp [pawn, BoxItem.getType]⟩,
    by simp [sampleBox, count, countLoop, pawn, rook, BoxItem.getType]⟩,
   (count_after_remove sampleBox "Queen").2
      (by simp [sampleBox, pawn, rook, BoxItem.getType])⟩

/-- C10: `count(t)` equals the number of elements of the chain whose type
equals `t`; in particular it is 0 on the empty chain. -/
theorem count_eq_occurrences [BoxItem T] (b : LinkedBox T) (t : String) :
    b.count t = (occurrences t b.head_ : Int) ∧
    ∀ (capacity size : Int),
      ({ head_ := [], capacity_ := capacity, size_ := size } : LinkedBox T).count t = 0 := by
  refine ⟨?_, fun _ _ => rfl⟩
  unfold count
  rw [countLoop_eq, zero_add]

/-- C10 at a concrete input: two pawns among pawn, rook, pawn. -/
theorem count_eq_occurrences_witness :
    sampleBox.count "Pawn" = 2 ∧ occurrences "Pawn" sampleBox.head_ = 2 := by
  have h := (count_eq_occurrences sampleBox "Pawn").1
  have hocc : occurrences "Pawn" sampleBox.head_ = 2 := by
    simp [occurrences, sampleBox, pawn, rook, BoxItem.getType]
  exact ⟨by rw [h, hocc]; rfl, hocc⟩

/-! ## contains -/

/-- The loop of `contains` answers true exactly when some element of the chain
has type `type`. -/
theorem containsLoop_eq_true_iff [BoxItem T] (type : String) :
    ∀ chain : List T,
      containsLoop type chain = true ↔ ∃ y ∈ chain, BoxItem.getType y = type := by
  intro chain
  induction chain with
  | nil => simp [containsLoop]
  | cons y chain ih =>
    by_cases hy : BoxItem.getType y = type
    · simp [containsLoop, hy]
    · simp [containsLoop, hy, ih]

/-- C11: `contains(t)` returns true if and only if at least one element of the
chain has type `t`. -/
theorem contains_iff_exists [BoxItem T] (b : LinkedBox T) (t : String) :
    b.contains t = true ↔ ∃ y ∈ b.head_, BoxItem.getType y = t :=
  containsLoop_eq_true_iff t b.head_

/-- C11 at concrete inputs: there is a rook among pawn, rook, pawn and no
queen. -/
theorem contains_iff_exists_witness :
    sampleBox.contains "Rook" = true ∧ sampleBox.contains "Queen" = false := by
  refine ⟨(contains_iff_exists sampleBox "Rook").mpr
    ⟨rook 2, by simp [sampleBox], by simp [rook, BoxItem.getType]⟩, ?_⟩
  simp [contains, containsLoop, sampleBox, pawn, rook, BoxItem.getType]

/-! ## display -/

/-- The loop of `display` appends to what was written before it the tags of
the chain, in order, each followed by one space. -/
theorem displayLoop_eq [BoxItem T] :
    ∀ (chain : List T) (out : String),
      displayLoop chain out = out ++ tagLine (chain.map BoxItem.getType) := by
  intro chain
  induction chain with
  | nil => intro out; simp [displayLoop, tagLine]
  | cons y chain ih =>
    intro out
    simp only [displayLoop, ih, List.map_cons, tagLine, String.append_assoc]

/-- C12: `display()` writes the type tags of all elements of the chain, each
exactly once, in head-to-tail order, each followed by one space, then a single
end-of-line, and nothing else. -/
theorem display_eq_tagLine [BoxItem T] (b : LinkedBox T) :
    b.display = tagLine (b.head_.map BoxItem.getType) ++ "\n" := by
  unfold display
  rw [displayLoop_eq, String.empty_append]

/-- C12 at a concrete input: pawn, rook, pawn is written as the three tags in
that order. -/
theorem display_eq_tagLine_witness :
    sampleBox.display = "Pawn Rook Pawn \n" := by
  rw [display_eq_tagLine]
  decide

/-! ## The worked examples -/

/-- C13: on a box constructed with capacity 8 the calls `addItem` of a pawn
(size 1), a rook (2), a queen (3), a pawn (1) and a rook (2) return true, true,
true, true, false, `size()` is 1, 3, 6, 7, 7 after the calls, and the final
chain is the fourth-inserted pawn, the queen, the first rook, the first pawn,
with `size()` 7. -/
theorem addItem_documentation_example :
    (addItems (withCapacity 8) exampleCalls).1 = [true, true, true, true, false] ∧
    ((states (withCapacity 8) (exampleCalls.map Op.addItem)).map size).tail = [1, 3, 6, 7, 7] ∧
    (addItems (withCapacity 8) exampleCalls).2.head_ = [pawn 4, queen 3, rook 2, pawn 1] ∧
    (addItems (withCapacity 8) exampleCalls).2.size = 7 ∧
    (addItems (withCapacity 8) exampleCalls).2.capacity = 8 := by
  decide

/-- C14: on a default-constructed box `remove("Rook")` returns false, and
afterwards `size()` is 0, `capacity()` is 64 and the chain is empty. -/
theorem remove_on_default_box [BoxItem T] :
    ((new : LinkedBox T).capacity = 64 ∧ (new : LinkedBox T).head_ = []) ∧
    ((new : LinkedBox T).remove "Rook").1 = false ∧
    ((new : LinkedBox T).remove "Rook").2.size = 0 ∧
    ((new : LinkedBox T).remove "Rook").2.capacity = 64 ∧
    ((new : LinkedBox T).remove "Rook").2.head_ = [] :=
  ⟨⟨rfl, rfl⟩, rfl, rfl, rfl, rfl⟩

/-! ## The const member functions -/

/-- The loop of `contains` run on the world gives the answer of `containsLoop`
and the world it started from. -/
theorem containsWhile_eq [BoxItem T] (type : String) :
    ∀ (chain : List T) (w : World T),
      containsWhile type w chain = (containsLoop type chain, w) := by
  intro chain
  induction chain with
  | nil => intro w; rfl
  | cons y chain ih =>
    intro w
    by_cases hy : BoxItem.getType y = type
    · simp [containsWhile, containsLoop, hy]
    · simp [containsWhile, containsLoop, hy, ih]

/-- The loop of `count` run on the world gives the answer of `countLoop` and
the world it started from. -/
theorem countWhile_eq [BoxItem T] (type : String) :
    ∀ (chain : List T) (w : World T) (acc : Int),
      countWhile type w chain acc = (countLoop type chain acc, w) := by
  intro chain
  induction chain with
  | nil => intro w acc; rfl
  | cons y chain ih =>
    intro w acc
    simp only [countWhile, countLoop, ih]

/-- The loop of `display` run on the world leaves the object as it is and
appends to `std::cout` what `displayLoop` appends. -/
theorem displayWhile_eq [BoxItem T] :
    ∀ (chain : List T) (w : World T),
      displayWhile w chain = { box := w.box, cout := displayLoop chain w.cout } := by
  intro chain
  induction chain with
  | nil => intro w; rfl
  | cons y chain ih =>
    intro w
    simp only [displayWhile, displayLoop, ih]

/-- A call of `display` leaves the object as it is and appends the whole text
of `display` to `std::cout`. -/
theorem displayCall_eq [BoxItem T] (w : World T) :
    displayCall w = { box := w.box, cout := w.cout ++ w.box.display } := by
  unfold displayCall display
  rw [displayWhile_eq, displayLoop_eq, displayLoop_eq, String.empty_append,
    String.append_assoc]

/-- C15: the calls `contains(t)`, `count(t)`, `display()`, `size()` and
`capacity()` leave the chain, the size and the capacity unchanged, so each of
them called twice in a row gives the same result both times (for `display`,
the same text written to `std::cout`). -/
theorem const_calls_leave_box_unchanged [BoxItem T] (w : World T) (t : String) :
    ((containsCall t w).2.box = w.box ∧ (countCall t w).2.box = w.box ∧
      (displayCall w).box = w.box ∧ (sizeCall w).2.box = w.box ∧
      (capacityCall w).2.box = w.box) ∧
    ((containsCall t (containsCall t w).2).1 = (containsCall t w).1 ∧
      (countCall t (countCall t w).2).1 = (countCall t w).1 ∧
      (sizeCall (sizeCall w).2).1 = (sizeCall w).1 ∧
      (capacityCall (capacityCall w).2).1 = (capacityCall w).1 ∧
      (displayCall w).cout = w.cout ++ w.box.display ∧
      (displayCall (displayCall w)).cout = (displayCall w).cout ++ w.box.display) := by
  have hcontains : containsCall t w = (w.box.contains t, w) := containsWhile_eq t _ w
  have hcount : countCall t w = (w.box.count t, w) := countWhile_eq t _ w 0
  have hdisplay := displayCall_eq w
  have hagain := displayCall_eq (displayCall w)
  refine ⟨⟨?_, ?_, ?_, rfl, rfl⟩, ?_, ?_, rfl, rfl, ?_, ?_⟩
  · rw [hcontains]
  · rw [hcount]
  · rw [hdisplay]
  · rw [hcontains, hcontains]
  · rw [hcount, hcount]
  · rw [hdisplay]
  · rw [hagain]
    simp only [hdisplay]

/-- C15 at a concrete input: on pawn, rook, pawn, `count("Pawn")` is 2 both
times, `display()` writes the same line twice, and the box is as before. -/
theorem const_calls_leave_box_unchanged_witness :
    (displayCall (displayCall { box := sampleBox, cout := "" })).box = sampleBox ∧
    (countCall "Pawn" (countCall "Pawn" { box := sampleBox, cout := "" }).2).1 = 2 ∧
    (displayCall (displayCall { box := sampleBox, cout := "" })).cout =
      "Pawn Rook Pawn \nPawn Rook Pawn \n" := by
  have h := const_calls_leave_box_unchanged { box := sampleBox, cout := "" } "Pawn"
  have h2 := const_calls_leave_box_unchanged (displayCall { box := sampleBox, cout := "" }) "Pawn"
  refine ⟨?_, ?_, ?_⟩
  · rw [h2.1.2.2.1, h.1.2.2.1]
  · rw [h.2.2.1]
    decide
  · rw [h.2.2.2.2.2.2, h.2.2.2.2.2.1]
    decide

/-! ## addItem followed by remove -/

/-- A value in the range of `int` is its own 32-bit representative. -/
theorem wrap32_of_in_range (x : Int) (hlo : -2147483648 ≤ x) (hhi : x ≤ 2147483647) :
    wrap32 x = x := by
  unfold wrap32
  rw [Int.emod_eq_of_lt (by omega) (by omega)]
  omega

/-- As long as the sum `size_ + target.size()` is in the range of `int`,
`addItem` with wrapping arithmetic is `addItem` on mathematical integers. -/
theorem addItem32_eq_addItem_of_in_range [BoxItem T] (b : LinkedBox T) (e : T)
    (hlo : -2147483648 ≤ b.size_ + BoxItem.size e)
    (hhi : b.size_ + BoxItem.size e ≤ 2147483647) :
    b.addItem32 e = b.addItem e := by
  unfold addItem32 addItem
  rw [wrap32_of_in_range _ hlo hhi]

/-- With wrapping arithmetic, on a box with `0 <= size <= capacity <= 2^31 - 1`
and an element with `1 <= e.size() <= 2^31 - 1` whose sum with the size does
not pass `2^31 - 1`, `addItem` returns true exactly when the sum is at most the
capacity, and then stores the sum. -/
theorem addItem32_sound_without_overflow [BoxItem T] (b : LinkedBox T) (e : T)
    (hsize : 0 ≤ b.size_) (_hcap : b.size_ ≤ b.capacity_) (_hmax : b.capacity_ ≤ 2147483647)
    (helem : 1 ≤ BoxItem.size e) (_helemmax : BoxItem.size e ≤ 2147483647)
    (hsum : b.size_ + BoxItem.size e ≤ 2147483647) :
    ((b.addItem32 e).1 = true ↔ b.size_ + BoxItem.size e ≤ b.capacity_) ∧
    ((b.addItem32 e).1 = true → (b.addItem32 e).2.size_ = b.size_ + BoxItem.size e) := by
  rw [addItem32_eq_addItem_of_in_range b e (by omega) hsum]
  unfold addItem
  by_cases hfull : b.size_ + BoxItem.size e > b.capacity_
  · have hnot : ¬ b.size_ + BoxItem.size e ≤ b.capacity_ := by omega
    simp [hfull, hnot]
  · have hle : b.size_ + BoxItem.size e ≤ b.capacity_ := by omega
    simp [hfull, hle]

/-- C17, at the failing input: with wrapping 32-bit arithmetic, the box of
capacity `2^31 - 1` filled by one element of size `2^31 - 1` (a state with
`0 <= size <= capacity <= 2^31 - 1`, reached from the constructor by one
`addItem`) accepts a further element of size 1: `addItem` returns true although
the mathematical sum `2^31` is greater than the capacity, and the stored size
is `-2^31`, not the sum. -/
theorem addItem32_accepts_beyond_capacity :
    ((withCapacity 2147483647 : LinkedBox Piece).addItem32 (giant 1) = (true, fullBox)) ∧
    (0 ≤ fullBox.size ∧ fullBox.size ≤ fullBox.capacity ∧ fullBox.capacity ≤ 2147483647) ∧
    (1 ≤ BoxItem.size (pawn 2) ∧ BoxItem.size (pawn 2) ≤ 2147483647) ∧
    (fullBox.addItem32 (pawn 2)).1 = true ∧
    ¬ (fullBox.size + BoxItem.size (pawn 2) ≤ fullBox.capacity) ∧
    (fullBox.addItem32 (pawn 2)).2.size = -2147483648 ∧
    (fullBox.addItem32 (pawn 2)).2.size ≠ fullBox.size + BoxItem.size (pawn 2) := by
  refine ⟨rfl, ?_⟩
  decide

/-- With wrapping arithmetic and a representable sum `size_ + e.size()`,
`addItem(e)` returns true if and only if the sum is at most the capacity, and
then the element is the new head, the size is the sum and the capacity is
unchanged. -/
theorem addItem32_accepts_iff_of_in_range [BoxItem T] (b : LinkedBox T) (e : T)
    (hlo : -2147483648 ≤ b.size_ + BoxItem.size e)
    (hhi : b.size_ + BoxItem.size e ≤ 2147483647) :
    ((b.addItem32 e).1 = true ↔ b.size + BoxItem.size e ≤ b.capacity) ∧
    ((b.addItem32 e).1 = true →
      (b.addItem32 e).2.head_ = e :: b.head_ ∧
      (b.addItem32 e).2.size = b.size + BoxItem.size e ∧
      (b.addItem32 e).2.capacity = b.capacity) := by
  rw [addItem32_eq_addItem_of_in_range b e hlo hhi]
  exact ⟨(addItem_accepts_iff b e).1, (addItem_accepts_iff b e).2.2⟩

/-- With wrapping arithmetic and a representable sum `size_ + e.size()` that
is greater than the capacity, `addItem(e)` returns false and the box is as
before. -/
theorem addItem32_rejects_unchanged_of_in_range [BoxItem T] (b : LinkedBox T) (e : T)
    (hlo : -2147483648 ≤ b.size_ + BoxItem.size e)
    (hhi : b.size_ + BoxItem.size e ≤ 2147483647)
    (h : b.size + BoxItem.size e > b.capacity) :
    (b.addItem32 e).1 = false ∧ (b.addItem32 e).2 = b := by
  rw [addItem32_eq_addItem_of_in_range b e hlo hhi]
  exact addItem_rejects_unchanged b e h

/-- C1, at the failing input: as the program runs it (32-bit wrapping `int`),
on the box of capacity `2^31 - 1` that one element of size `2^31 - 1` fills,
`addItem` of an element of size 1 returns true although
`size + e.size() <= capacity` is false (the sum is `2^31`), and the new size is
`-2^31`, not the old size plus `e.size()`. -/
theorem addItem32_true_without_fit :
    (fullBox.addItem32 (pawn 2)).1 = true ∧
    ¬ (fullBox.size + BoxItem.size (pawn 2) ≤ fullBox.capacity) ∧
    fullBox.size + BoxItem.size (pawn 2) = 2147483648 ∧
    (fullBox.addItem32 (pawn 2)).2.head_ = pawn 2 :: fullBox.head_ ∧
    (fullBox.addItem32 (pawn 2)).2.size = -2147483648 := by
  decide

/-- C2, at the failing input: as the program runs it (32-bit wrapping `int`),
on the box of capacity `2^31 - 1` that one element of size `2^31 - 1` fills,
an element of size 1 has `size + e.size() > capacity`, yet `addItem` does not
return false and the chain and the size are not as they were. -/
theorem addItem32_over_capacity_not_rejected :
    fullBox.size + BoxItem.size (pawn 2) > fullBox.capacity ∧
    (fullBox.addItem32 (pawn 2)).1 ≠ false ∧
    (fullBox.addItem32 (pawn 2)).2.head_ ≠ fullBox.head_ ∧
    (fullBox.addItem32 (pawn 2)).2.size ≠ fullBox.size := by
  decide

/-- C5, at the failing input: as the program runs it (32-bit wrapping `int`),
the box constructed with capacity `2^31 - 1` accepts an element of size
`2^31 - 1` and then an element of size 1; in the state reached the chain holds
both, the sum of their sizes is `2^31`, and `size()` is `-2^31`. -/
theorem size_ne_chainSize_after_wrap :
    (0 < BoxItem.size (giant 1) ∧ 0 < BoxItem.size (pawn 2)) ∧
    (addItems32 (withCapacity 2147483647) [giant 1, pawn 2]).1 = [true, true] ∧
    (addItems32 (withCapacity 2147483647) [giant 1, pawn 2]).2.head_ = [pawn 2, giant 1] ∧
    chainSize (addItems32 (withCapacity 2147483647) [giant 1, pawn 2]).2.head_ = 2147483648 ∧
    (addItems32 (withCapacity 2147483647) [giant 1, pawn 2]).2.size = -2147483648 ∧
    (addItems32 (withCapacity 2147483647) [giant 1, pawn 2]).2.size ≠
      chainSize (addItems32 (withCapacity 2147483647) [giant 1, pawn 2]).2.head_ := by
  decide

/-! ## Insertion order -/

/-- A chain of elements of non-negative size has a non-negative sum. -/
theorem chainSize_nonneg [BoxItem T] :
    ∀ es : List T, (∀ e ∈ es, 0 ≤ BoxItem.size e) → 0 ≤ chainSize es := by
  intro es
  induction es with
  | nil => intro _; simp [chainSize]
  | cons e es ih =>
    intro hpos
    have he := hpos e (List.mem_cons_self e es)
    have hes := ih (fun x hx => hpos x (List.mem_cons_of_mem e hx))
    simp only [chainSize, List.map_cons, List.sum_cons] at hes ⊢
    omega

/-- Elements of non-negative size that together fit into what is left of the
capacity are all accepted, each in front of the ones before it. -/
theorem addItems_of_fit [BoxItem T] :
    ∀ (es : List T) (b : LinkedBox T), (∀ e ∈ es, 0 ≤ BoxItem.size e) →
      b.size_ + chainSize es ≤ b.capacity_ →
      addItems b es =
        (List.replicate es.length true,
          { head_ := es.reverse ++ b.head_
            capacity_ := b.capacity_
            size_ := b.size_ + chainSize es }) := by
  intro es
  induction es with
  | nil => intro b _ _; simp [addItems, chainSize]
  | cons e es ih =>
    intro b hpos hfit
    have hrest : ∀ x ∈ es, 0 ≤ BoxItem.size x :=
      fun x hx => hpos x (List.mem_cons_of_mem e hx)
    have hnn := chainSize_nonneg es hrest
    have hsplit : chainSize (e :: es) = BoxItem.size e + chainSize es := by
      simp [chainSize]
    rw [hsplit] at hfit
    have hroom : ¬ b.size_ + BoxItem.size e > b.capacity_ := by omega
    have hadd : b.addItem e =
        (true, { head_ := e :: b.head_, capacity_ := b.capacity_,
                 size_ := b.size_ + BoxItem.size e }) := by
      simp [addItem, hroom]
    have hih := ih { head_ := e :: b.head_, capacity_ := b.capacity_,
                     size_ := b.size_ + BoxItem.size e } hrest (by simp only; omega)
    simp only [addItems, hadd, hih, hsplit, List.length_cons, List.replicate_succ,
      List.reverse_cons, List.append_assoc, List.singleton_append, add_assoc]

/-- Elements of non-negative size that together fit into what is left of a
capacity an `int` can hold are handled by the wrapping arithmetic exactly as
by the exact one. -/
theorem addItems32_eq_addItems_of_fit [BoxItem T] :
    ∀ (es : List T) (b : LinkedBox T), (∀ e ∈ es, 0 ≤ BoxItem.size e) →
      0 ≤ b.size_ → b.size_ + chainSize es ≤ b.capacity_ → b.capacity_ ≤ 2147483647 →
      addItems32 b es = addItems b es := by
  intro es
  induction es with
  | nil => intro b _ _ _ _; rfl
  | cons e es ih =>
    intro b hpos hsize hfit hmax
    have he := hpos e (List.mem_cons_self e es)
    have hrest : ∀ x ∈ es, 0 ≤ BoxItem.size x :=
      fun x hx => hpos x (List.mem_cons_of_mem e hx)
    have hnn := chainSize_nonneg es hrest
    have hsplit : chainSize (e :: es) = BoxItem.size e + chainSize es := by
      simp [chainSize]
    rw [hsplit] at hfit
    have h32 : b.addItem32 e = b.addItem e :=
      addItem32_eq_addItem_of_in_range b e (by omega) (by omega)
    have hroom : ¬ b.size_ + BoxItem.size e > b.capacity_ := by omega
    have hadd : b.addItem e =
        (true, { head_ := e :: b.head_, capacity_ := b.capacity_,
                 size_ := b.size_ + BoxItem.size e }) := by
      simp [addItem, hroom]
    have hih := ih { head_ := e :: b.head_, capacity_ := b.capacity_,
                     size_ := b.size_ + BoxItem.size e } hrest
      (by simp only; omega) (by simp only; omega) hmax
    simp only [addItems32, addItems, h32, hadd, hih]

/-- C18: for every list `es` of elements (of positive size, as the element
interface requires) whose sizes sum to at most the capacity of an empty box,
`addItem` on each element of `es` in order returns true every time and leaves
the chain, and so the tags `display()` writes, in the reverse order of `es`,
with `size()` the sum of the sizes; with a capacity an `int` can hold, the
wrapping 32-bit arithmetic of the program gives the same flags and the same
box. -/
theorem addItems_reverses [BoxItem T] (es : List T) (c : Int)
    (hpos : ∀ e ∈ es, 0 < BoxItem.size e) (hfit : chainSize es ≤ c) :
    (addItems (withCapacity c) es).1 = List.replicate es.length true ∧
    (addItems (withCapacity c) es).2.head_ = es.reverse ∧
    (addItems (withCapacity c) es).2.display =
      tagLine (es.reverse.map BoxItem.getType) ++ "\n" ∧
    (addItems (withCapacity c) es).2.size = chainSize es ∧
    (addItems (withCapacity c) es).2.capacity = c ∧
    (c ≤ 2147483647 → addItems32 (withCapacity c) es = addItems (withCapacity c) es) := by
  have hnonneg : ∀ e ∈ es, 0 ≤ BoxItem.size e := fun e he => le_of_lt (hpos e he)
  have hrun := addItems_of_fit es (withCapacity c) hnonneg
    (by simpa [withCapacity] using hfit)
  have hwrap : c ≤ 2147483647 →
      addItems32 (withCapacity c) es = addItems (withCapacity c) es := fun hmax =>
    addItems32_eq_addItems_of_fit es (withCapacity c) hnonneg (le_refl 0)
      (by simpa [withCapacity] using hfit) hmax
  have hdisplay := displayLoop_eq (addItems (withCapacity c) es).2.head_ ""
  refine ⟨?_, ?_, ?_, ?_, ?_, hwrap⟩
  · rw [hrun]
  · rw [hrun]; simp [withCapacity]
  · unfold display
    rw [hdisplay, hrun]
    simp [withCapacity]
  · rw [hrun]; simp [withCapacity, size]
  · rw [hrun]; simp [withCapacity, capacity]

/-- C18 at a concrete input: pawn, rook, queen, together of size 6, added to
an empty box of capacity 6 are all accepted and end up as queen, rook, pawn,
also with wrapping arithmetic. -/
theorem addItems_reverses_witness :
    (addItems (withCapacity 6) [pawn 1, rook 2, queen 3]).1 = [true, true, true] ∧
    (addItems (withCapacity 6) [pawn 1, rook 2, queen 3]).2.head_ =
      [queen 3, rook 2, pawn 1] ∧
    (addItems (withCapacity 6) [pawn 1, rook 2, queen 3]).2.display = "Queen Rook Pawn \n" ∧
    (addItems (withCapacity 6) [pawn 1, rook 2, queen 3]).2.size = 6 ∧
    (addItems (withCapacity 6) [pawn 1, rook 2, queen 3]).2.capacity = 6 ∧
    addItems32 (withCapacity 6) [pawn 1, rook 2, queen 3] =
      addItems (withCapacity 6) [pawn 1, rook 2, queen 3] := by
  have h := addItems_reverses [pawn 1, rook 2, queen 3] 6 (by decide) (by decide)
  exact ⟨h.1, h.2.1, h.2.2.1, h.2.2.2.1, h.2.2.2.2.1, h.2.2.2.2.2 (by decide)⟩

/-! ## contains and count together -/

/-- Some element has type `type` exactly when the number of such elements is
positive. -/
theorem occurrences_pos_iff [BoxItem T] (type : String) :
    ∀ chain : List T,
      0 < occurrences type chain ↔ ∃ y ∈ chain, BoxItem.getType y = type := by
  intro chain
  induction chain with
  | nil => simp [occurrences]
  | cons y chain ih =>
    by_cases hy : BoxItem.getType y = type
    · simp [occurrences, hy]
    · simp only [occurrences] at ih
      simp [occurrences, hy, ih]

/-- C19: `contains(t)` is true if and only if `count(t) > 0`, and `count(t)` is
never negative and never greater than the number of elements in the chain. -/
theorem contains_iff_count_pos [BoxItem T] (b : LinkedBox T) (t : String) :
    (b.contains t = true ↔ b.count t > 0) ∧
    0 ≤ b.count t ∧ b.count t ≤ (b.head_.length : Int) := by
  have hcount : b.count t = (occurrences t b.head_ : Int) := by
    unfold count
    rw [countLoop_eq, zero_add]
  have hle : occurrences t b.head_ ≤ b.head_.length := List.length_filter_le _ _
  refine ⟨?_, by omega, by omega⟩
  rw [hcount]
  unfold contains
  rw [containsLoop_eq_true_iff, ← occurrences_pos_iff]
  omega

/-- C19 at a concrete input: pawn, rook, pawn contains a pawn and counts two,
contains no queen and counts none. -/
theorem contains_iff_count_pos_witness :
    (sampleBox.contains "Pawn" = true ∧ sampleBox.count "Pawn" = 2) ∧
    (sampleBox.contains "Queen" = false ∧ sampleBox.count "Queen" = 0) ∧
    sampleBox.count "Pawn" ≤ 3 := by
  have h := contains_iff_count_pos sampleBox "Pawn"
  have hc : sampleBox.count "Pawn" = 2 := by decide
  refine ⟨⟨h.1.mpr (by rw [hc]; decide), hc⟩, by decide, ?_⟩
  exact h.2.2

end LinkedBox
